import Mathlib

/-!
Shallow embedding of the ARM encoding-index decoder (`decoder.py`):
the `EncodingTable` decision tree, its builder, the decode traversal and
the constraint matcher `matchVar`.

The repository file `common.py` (providing `compareWithXs`, the
`InstructionMapping` field extractor, `InstructionPage` and the constant
`ARM_FILE_PATH`) is not part of the given sources; the wildcard comparator
and the path constant are modelled from the specification, and the field
extractor / disassembler are kept abstract as function parameters, exactly
as the spec treats them (external collaborators).
-/

namespace Decoder

/-- A row constraint: a (field name, pattern) pair; the pattern is `None`
in the XML when a table cell is empty (`td.text`/`c.text` is `None`). -/
abbrev RowKey := List (String × Option String)

/-- The bit layout of a node: the `variables` dict built from the
regdiagram boxes, mapping a field name to (hibit, width). -/
abbrev IMap := List (String × Nat × Nat)

/-- The extracted field values of one instruction word, as produced by the
external field extractor (`InstructionMapping.assignValues`). -/
abbrev Values := List (String × String)

/-- Python dict assignment `d[k] = v` on an insertion-ordered association
list: if the key is present, its value is replaced in place (the key keeps
its original position); otherwise the pair is appended at the end. -/
def dictInsert (k : RowKey) (v : α) : List (RowKey × α) → List (RowKey × α)
  | [] => [(k, v)]
  | (k', v') :: rest => if k = k' then (k, v) :: rest else (k', v') :: dictInsert k v rest

/-- Python dict lookup `d[k]` / `k in d` on the same representation. -/
def dictLookup (k : RowKey) : List (RowKey × α) → Option α
  | [] => none
  | (k', v') :: rest => if k = k' then some v' else dictLookup k rest

/-- Python `s.split("!=")` on a character list: cut at every (non
overlapping, leftmost-first) occurrence of the two-character separator.
`acc` holds the current piece, reversed. -/
def splitNeqAux : List Char → List Char → List (List Char)
  | [], acc => [acc.reverse]
  | '!' :: '=' :: rest, acc => acc.reverse :: splitNeqAux rest []
  | c :: rest, acc => splitNeqAux rest (c :: acc)

/-- Python `s.split("!=")`: the list of pieces between occurrences of
`!=`. A string with no occurrence yields a single piece, so Python's
`"!=" in s` test is `(splitNeq s).length ≠ 1`. -/
def splitNeq (s : List Char) : List (List Char) :=
  splitNeqAux s []

/-- Python `s.replace(" ", "")`: every space character is removed. -/
def removeSpaces (s : List Char) : List Char :=
  s.filter fun c => c ≠ ' '

/-- Modelled from the spec: `compareWithXs` lives in the absent `common.py`.
Per the spec's wildcard rule, pattern and value are compared
position-by-position; a pattern character `x` matches any value character,
any other character must match exactly, and the two strings must have the
same length for the comparison to be meaningful. -/
def compareWithXs (pattern value : List Char) : Bool :=
  pattern.length == value.length &&
    (pattern.zip value).all fun pc => pc.1 == 'x' || pc.1 == pc.2

/-- Modelled from the spec: `ARM_FILE_PATH` is a constant of the absent
`common.py`, the root location of the instruction-form resources (§9 of
the spec: an explicit resource-root configuration value). Its concrete
value is irrelevant to every property proved here. -/
def ARM_FILE_PATH : String := "ARM"

/-- `EncodingTable.matchVar(vars, tup)`: decides whether the single
constraint `tup` holds against the extracted values `vars`. The Python
loop returns at the first element of `vars` whose name equals the
constraint's field name; if none matches, it falls through to `False`. -/
def matchVar (vars : Values) (tup : String × Option String) : Bool :=
  match vars with
  | [] => false
  | (n, v) :: rest =>
    if n = tup.1 then
      match tup.2 with
      | none => true
      | some pat =>
        if (splitNeq pat.toList).length ≠ 1 then
          let parts := splitNeq (removeSpaces pat.toList)
          let a := parts.headD []
          let b := parts.getD 1 []
          if a.length = 0 then
            !(compareWithXs b v.toList)
          else
            compareWithXs a (v.toList.take a.length) &&
              !(compareWithXs b (v.toList.drop a.length))
        else
          compareWithXs pat.toList v.toList
    else matchVar rest tup

/-- One full row key matches iff every constraint in it matches
(`decode`'s inner loop sets `matches = False` on any failure). -/
def rowMatches (vars : Values) (row : RowKey) : Bool :=
  row.all fun tup => matchVar vars tup

mutual

/-- A dispatch target: a nested `EncodingTable`, an `InstructionPage`
(identified by the iform file path it was constructed from), or a bare
name string (`encname`, or an unresolved iclass identifier). -/
inductive Target where
  | table : EncodingTable → Target
  | page : String → Target
  | bare : String → Target

/-- The decode-tree node: `entries` is the insertion-ordered dispatch dict,
`directFile` the optional direct target of the degenerate single-outcome
case, `imap` the bit layout feeding the field extractor. -/
inductive EncodingTable where
  | mk : IMap → List (RowKey × Target) → Option Target → EncodingTable

end

/-- The bit layout of a node. -/
def EncodingTable.imap : EncodingTable → IMap
  | .mk m _ _ => m

/-- The dispatch dict of a node. -/
def EncodingTable.entries : EncodingTable → List (RowKey × Target)
  | .mk _ es _ => es

/-- The `directFile` slot of a node. -/
def EncodingTable.directFile : EncodingTable → Option Target
  | .mk _ _ d => d

/-- A decode outcome: the disassembler's successful output for an
instruction page, or a bare name returned as-is. Python's `None` (both
the undecodable fall-through and a failed disassembly) is `none`. -/
inductive Res where
  | form : String → Res
  | bare : String → Res

mutual

/-- `EncodingTable.decode(instruction)`: extract the node's field values,
short-circuit on `directFile`, otherwise try the dispatch rows in
insertion order and resolve the first fully matching row; fall through to
`None`. `ex` is the external field extractor, `dis` the external
disassembler (`InstructionPage.disassemble`). -/
def EncodingTable.decode (ex : IMap → Nat → Values) (dis : String → Nat → Option String) :
    EncodingTable → Nat → Option Res
  | .mk imap entries directFile, instr =>
    let values := ex imap instr
    match directFile with
    | some t => resolveTarget ex dis t instr
    | none => decodeRows ex dis entries values instr

/-- Resolution of a selected target, shared by the `directFile` shortcut
and the row-match case: recurse into a nested table, disassemble an
instruction page (propagating its possible `None`), or return a bare
name. -/
def resolveTarget (ex : IMap → Nat → Values) (dis : String → Nat → Option String) :
    Target → Nat → Option Res
  | .table t, instr => EncodingTable.decode ex dis t instr
  | .page f, instr =>
    match dis f instr with
    | some d => some (.form d)
    | none => none
  | .bare s, _ => some (.bare s)

/-- The row loop of `decode`: first row whose every constraint matches is
resolved; an exhausted loop returns `None`. -/
def decodeRows (ex : IMap → Nat → Values) (dis : String → Nat → Option String) :
    List (RowKey × Target) → Values → Nat → Option Res
  | [], _, _ => none
  | (row, tgt) :: rest, values, instr =>
    if rowMatches values row then resolveTarget ex dis tgt instr
    else decodeRows ex dis rest values instr

end

/-- A `box` element of a regdiagram: an optional `name` attribute, the
`hibit` attribute, an optional `width` attribute (absent means width 1). -/
structure Box where
  name : Option String
  hibit : Nat
  width : Option Nat

/-- Python dict assignment on the string-keyed bit-layout dict. -/
def imapInsert (k : String) (v : Nat × Nat) : IMap → IMap
  | [] => [(k, v)]
  | (k', v') :: rest => if k = k' then (k, v) :: rest else (k', v') :: imapInsert k v rest

/-- The `variables` dict built in `__init__` from the regdiagram: each
named box contributes `(hibit, width or 1)`; a repeated name overwrites
(Python dict assignment). -/
def mkIMap (boxes : List Box) : IMap :=
  boxes.foldl (fun acc b =>
    match b.name with
    | some n => imapInsert n (b.hibit, b.width.getD 1) acc
    | none => acc) []

/-- A `tr` data row of an instructiontable body: the `td` texts in column
order, and the `iformfile` / `encname` attributes when present. -/
structure DataRow where
  tds : List (Option String)
  iformfile : Option String
  encname : Option String

/-- An `instructiontable` element: the `thead` rows (each the list of its
`th` texts) and the `tbody` data rows. -/
structure InstructionTable where
  theadRows : List (List String)
  tbodyRows : List DataRow

/-- An `iclass_sect` element: its `id` attribute, regdiagram boxes and
instruction table. -/
structure IclassSect where
  id : String
  regdiagram : List Box
  table : InstructionTable

/-- The target a data row maps to: an `InstructionPage` on the row's
`iformfile`, else the `encname` bare name; a row with neither attribute is
a fatal `KeyError` (`none`). -/
def rowTarget (r : DataRow) : Option Target :=
  match r.iformfile with
  | some f => some (.page (ARM_FILE_PATH ++ "/" ++ f))
  | none => r.encname.map .bare

/-- The row key of a data row: header field names zipped with the row's
`td` texts (`tds[i]` for `i < len(tableVars)`); a row with fewer columns
than the header is a fatal `IndexError` (`none`). -/
def rowKey (tableVars : List String) (r : DataRow) : Option RowKey :=
  if tableVars.length ≤ r.tds.length then some (tableVars.zip r.tds) else none

/-- The dispatch-building loop of the iclass_sect branch: each data row's
key is assigned its target in the entries dict, in row order. -/
def sectEntries (tableVars : List String) :
    List DataRow → List (RowKey × Target) → Option (List (RowKey × Target))
  | [], acc => some acc
  | r :: rest, acc =>
    match rowKey tableVars r, rowTarget r with
    | some k, some t => sectEntries tableVars rest (dictInsert k t acc)
    | _, _ => none

/-- `EncodingTable.__init__(root, sect, sect=True)`: builds the node of an
iclass_sect. With exactly one `thead` row the first body row's target
becomes `directFile` and no dispatch is built; otherwise the second
`thead` row gives the field names and every body row becomes a dispatch
assignment. A `thead` with no rows is a fatal `IndexError`, an empty
`tbody` in the degenerate case a fatal attribute error (`none`). -/
def buildSect (s : IclassSect) : Option EncodingTable :=
  match s.table.theadRows with
  | [_] =>
    match s.table.tbodyRows with
    | [] => none
    | r :: _ => (rowTarget r).map fun t => .mk (mkIMap s.regdiagram) [] (some t)
  | _ :: tableVars :: _ =>
    (sectEntries tableVars s.table.tbodyRows []).map fun es =>
      .mk (mkIMap s.regdiagram) es none
  | [] => none

/-- The iclass-resolution loop over all `iclass_sect` elements of the
document: every section whose `id` equals the child's `iclass` attribute
is built and assigned to the child's entry (so a later match overwrites an
earlier one); if none matched, the raw identifier is assigned as a bare
name. `cur` is the value currently assigned. -/
def iclassGo (id : String) : List IclassSect → Option Target → Option Target
  | [], cur => some (cur.getD (.bare id))
  | s :: rest, cur =>
    if s.id = id then
      match buildSect s with
      | some t => iclassGo id rest (some (.table t))
      | none => none
    else iclassGo id rest cur

/-- The net target stored for an iclass child, given the document's
iclass_sect list in document order. -/
def iclassResolve (sects : List IclassSect) (id : String) : Option Target :=
  iclassGo id sects none

mutual

/-- What a child `node` element declares: a `groupname` attribute with its
own nested hierarchy, an `iclass` attribute naming an iclass_sect, or
neither (such a child is silently skipped by the builder). -/
inductive NodeKind where
  | group : Hierarchy → NodeKind
  | iclass : String → NodeKind
  | other : NodeKind

/-- A child `node` element: its decode-constraint boxes (name attribute
and `c` text, in order) and its kind. -/
inductive ChildNode where
  | mk : RowKey → NodeKind → ChildNode

/-- A grouping `node` element: its regdiagram boxes and child nodes. -/
inductive Hierarchy where
  | mk : List Box → List ChildNode → Hierarchy

end

/-- The decode-constraint row key of a child node. -/
def ChildNode.key : ChildNode → RowKey
  | .mk k _ => k

/-- The kind of a child node. -/
def ChildNode.kind : ChildNode → NodeKind
  | .mk _ k => k

mutual

/-- `EncodingTable.__init__(root, hierarchy)` in node (grouping) mode:
derives the bit layout from the regdiagram and fills the entries dict
from the children, in order. `sects` is the document-order list of all
`iclass_sect` elements reachable from the root. -/
def buildH (sects : List IclassSect) : Hierarchy → Option EncodingTable
  | .mk boxes children =>
    (buildChildren sects children []).map fun es => .mk (mkIMap boxes) es none

/-- The child loop of the grouping branch: a `groupname` child recursively
builds a nested table, an `iclass` child resolves through the document's
iclass_sect list, a child with neither attribute adds nothing. Each
resolved child is dict-assigned under its decode row key. -/
def buildChildren (sects : List IclassSect) :
    List ChildNode → List (RowKey × Target) → Option (List (RowKey × Target))
  | [], acc => some acc
  | .mk key kind :: rest, acc =>
    match kind with
    | .group sub =>
      match buildH sects sub with
      | some t => buildChildren sects rest (dictInsert key (.table t) acc)
      | none => none
    | .iclass id =>
      match iclassResolve sects id with
      | some tgt => buildChildren sects rest (dictInsert key tgt acc)
      | none => none
    | .other => buildChildren sects rest acc

end

mutual

def Target.invAll : Target → Bool
  | .table t => t.invariantAll
  | .page _ => true
  | .bare _ => true

def EncodingTable.invariantAll : EncodingTable → Bool
  | .mk _ entries d =>
    (!entries.isEmpty || d.isSome) && entriesInv entries &&
      (match d with
       | some t => t.invAll
       | none => true)

def entriesInv : List (RowKey × Target) → Bool
  | [] => true
  | (_, t) :: rest => t.invAll && entriesInv rest

end

def WFsect (s : IclassSect) : Bool :=
  s.table.theadRows.length == 1 || !s.table.tbodyRows.isEmpty

mutual

def WFh : Hierarchy → Bool
  | .mk _ children => childrenAnyReal children && childrenWF children

def childrenAnyReal : List ChildNode → Bool
  | [] => false
  | .mk _ (.group _) :: _ => true
  | .mk _ (.iclass _) :: _ => true
  | .mk _ .other :: rest => childrenAnyReal rest

def childrenWF : List ChildNode → Bool
  | [] => true
  | .mk _ (.group sub) :: rest => WFh sub && childrenWF rest
  | .mk _ (.iclass _) :: rest => childrenWF rest
  | .mk _ .other :: rest => childrenWF rest

end

theorem rowTarget_invAll (r : DataRow) (t : Target) (h : rowTarget r = some t) :
    t.invAll = true := by
  unfold rowTarget at h
  cases hf : r.iformfile with
  | some f =>
    rw [hf] at h
    cases h
    rfl
  | none =>
    rw [hf] at h
    cases he : r.encname with
    | some e =>
      rw [he] at h
      cases h
      rfl
    | none =>
      rw [he] at h
      cases h

theorem dictInsert_ne_nil (k : RowKey) (t : Target) (l : List (RowKey × Target)) :
    dictInsert k t l ≠ [] := by
  cases l with
  | nil => simp [dictInsert]
  | cons hd tl =>
    obtain ⟨k', t'⟩ := hd
    rw [dictInsert]
    split <;> simp

theorem entriesInv_dictInsert (k : RowKey) (t : Target) (l : List (RowKey × Target))
    (ht : t.invAll = true) (hl : entriesInv l = true) :
    entriesInv (dictInsert k t l) = true := by
  induction l with
  | nil => simp [dictInsert, entriesInv, ht]
  | cons hd tl ih =>
    obtain ⟨k', t'⟩ := hd
    rw [entriesInv] at hl
    simp only [Bool.and_eq_true] at hl
    rw [dictInsert]
    split
    · rw [entriesInv]
      simp [ht, hl.2]
    · rw [entriesInv]
      simp [hl.1, ih hl.2]

theorem sectEntries_inv (tv : List String) (rows : List DataRow)
    (acc es : List (RowKey × Target)) (hacc : entriesInv acc = true)
    (hb : sectEntries tv rows acc = some es) : entriesInv es = true := by
  induction rows generalizing acc with
  | nil =>
    rw [sectEntries] at hb
    cases hb
    exact hacc
  | cons r rest ih =>
    rw [sectEntries] at hb
    cases hk : rowKey tv r with
    | none => rw [hk] at hb; cases hb
    | some k =>
      cases ht : rowTarget r with
      | none => rw [hk, ht] at hb; cases hb
      | some t =>
        rw [hk, ht] at hb
        exact ih _ (entriesInv_dictInsert k t acc (rowTarget_invAll r t ht) hacc) hb

theorem sectEntries_ne_nil (tv : List String) (rows : List DataRow)
    (acc es : List (RowKey × Target)) (hb : sectEntries tv rows acc = some es)
    (h : rows ≠ [] ∨ acc ≠ []) : es ≠ [] := by
  induction rows generalizing acc with
  | nil =>
    rw [sectEntries] at hb
    cases hb
    rcases h with h | h
    · exact absurd rfl h
    · exact h
  | cons r rest ih =>
    rw [sectEntries] at hb
    cases hk : rowKey tv r with
    | none => rw [hk] at hb; cases hb
    | some k =>
      cases ht : rowTarget r with
      | none => rw [hk, ht] at hb; cases hb
      | some t =>
        rw [hk, ht] at hb
        exact ih _ hb (Or.inr (dictInsert_ne_nil k t acc))

theorem buildSect_inv (s : IclassSect) (t : EncodingTable)
    (hwf : WFsect s = true) (hb : buildSect s = some t) :
    t.invariantAll = true := by
  obtain ⟨sid, boxes, tbl⟩ := s
  obtain ⟨heads, rows⟩ := tbl
  unfold buildSect at hb
  unfold WFsect at hwf
  match heads, hwf, hb with
  | [], hwf, hb => exact absurd hb (by simp)
  | [h0], hwf, hb =>
    match rows, hb with
    | [], hb => exact absurd hb (by simp)
    | r :: rest, hb =>
      simp only [Option.map_eq_some'] at hb
      obtain ⟨tgt, htgt, ht⟩ := hb
      subst ht
      rw [EncodingTable.invariantAll]
      simp [Target.invAll, entriesInv, rowTarget_invAll r tgt htgt]
  | h0 :: tv :: hrest, hwf, hb =>
    simp only [Option.map_eq_some'] at hb
    obtain ⟨es, hes, ht⟩ := hb
    subst ht
    have hrows : rows ≠ [] := by
      simp only [List.length_cons, beq_iff_eq] at hwf
      simpa using hwf
    rw [EncodingTable.invariantAll]
    have h1 : es ≠ [] := sectEntries_ne_nil tv rows [] es hes (Or.inl hrows)
    have h2 : entriesInv es = true := sectEntries_inv tv rows [] es rfl hes
    simp [h1, h2]

theorem iclassGo_inv (id : String) (l : List IclassSect)
    (hl : ∀ s ∈ l, WFsect s = true) :
    ∀ cur tgt, (cur = none ∨ ∃ t0, cur = some t0 ∧ t0.invAll = true) →
      iclassGo id l cur = some tgt → tgt.invAll = true := by
  induction l with
  | nil =>
    intro cur tgt hcur hb
    rw [iclassGo] at hb
    cases hb
    rcases hcur with h | ⟨t0, ht0, hinv⟩
    · subst h
      rfl
    · subst ht0
      simpa using hinv
  | cons s rest ih =>
    intro cur tgt hcur hb
    rw [iclassGo] at hb
    by_cases hs : s.id = id
    · rw [if_pos hs] at hb
      cases hbs : buildSect s with
      | none => rw [hbs] at hb; cases hb
      | some t' =>
        rw [hbs] at hb
        have hinv : Target.invAll (.table t') = true := by
          rw [Target.invAll]
          exact buildSect_inv s t' (hl s (List.mem_cons_self _ _)) hbs
        exact ih (fun x hx => hl x (List.mem_cons_of_mem _ hx)) _ tgt
          (Or.inr ⟨_, rfl, hinv⟩) hb
    · rw [if_neg hs] at hb
      exact ih (fun x hx => hl x (List.mem_cons_of_mem _ hx)) _ tgt hcur hb

theorem buildChildren_ne_nil (sects : List IclassSect) :
    ∀ (cs : List ChildNode) (acc es : List (RowKey × Target)),
      buildChildren sects cs acc = some es →
      (childrenAnyReal cs = true ∨ acc ≠ []) → es ≠ [] := by
  intro cs
  induction cs with
  | nil =>
    intro acc es hb h
    rw [buildChildren] at hb
    cases hb
    rcases h with h | h
    · exact absurd h (by rw [childrenAnyReal]; simp)
    · exact h
  | cons c rest ih =>
    intro acc es hb h
    obtain ⟨key, kind⟩ := c
    cases kind with
    | group sub =>
      rw [buildChildren] at hb
      cases hbs : buildH sects sub with
      | none => rw [hbs] at hb; cases hb
      | some t' =>
        rw [hbs] at hb
        exact ih _ es hb (Or.inr (dictInsert_ne_nil _ _ _))
    | iclass id =>
      rw [buildChildren] at hb
      cases hres : iclassResolve sects id with
      | none => rw [hres] at hb; cases hb
      | some tgt =>
        rw [hres] at hb
        exact ih _ es hb (Or.inr (dictInsert_ne_nil _ _ _))
    | other =>
      rw [buildChildren] at hb
      rcases h with h | h
      · rw [childrenAnyReal] at h
        exact ih acc es hb (Or.inl h)
      · exact ih acc es hb (Or.inr h)

mutual

theorem buildH_inv (sects : List IclassSect) (hs : ∀ s ∈ sects, WFsect s = true) :
    ∀ (h : Hierarchy) (t : EncodingTable), WFh h = true →
      buildH sects h = some t → t.invariantAll = true
  | .mk boxes children, t, hwf, hb => by
    rw [buildH] at hb
    cases hbc : buildChildren sects children [] with
    | none => rw [hbc] at hb; cases hb
    | some es =>
      rw [hbc] at hb
      cases hb
      rw [WFh] at hwf
      simp only [Bool.and_eq_true] at hwf
      have h1 : es ≠ [] := buildChildren_ne_nil sects children [] es hbc (Or.inl hwf.1)
      have h2 : entriesInv es = true :=
        buildChildren_inv sects hs children [] es hwf.2 rfl hbc
      rw [EncodingTable.invariantAll]
      simp [h1, h2]

theorem buildChildren_inv (sects : List IclassSect) (hs : ∀ s ∈ sects, WFsect s = true) :
    ∀ (cs : List ChildNode) (acc es : List (RowKey × Target)),
      childrenWF cs = true → entriesInv acc = true →
      buildChildren sects cs acc = some es → entriesInv es = true
  | [], acc, es, _, hacc, hb => by
    rw [buildChildren] at hb
    cases hb
    exact hacc
  | .mk key (.group sub) :: rest, acc, es, hwf, hacc, hb => by
    rw [buildChildren] at hb
    cases hbs : buildH sects sub with
    | none => rw [hbs] at hb; cases hb
    | some t' =>
      rw [hbs] at hb
      rw [childrenWF] at hwf
      simp only [Bool.and_eq_true] at hwf
      have hinv : Target.invAll (.table t') = true := by
        rw [Target.invAll]
        exact buildH_inv sects hs sub t' hwf.1 hbs
      exact buildChildren_inv sects hs rest _ es hwf.2
        (entriesInv_dictInsert key _ acc hinv hacc) hb
  | .mk key (.iclass id) :: rest, acc, es, hwf, hacc, hb => by
    rw [buildChildren] at hb
    cases hres : iclassResolve sects id with
    | none => rw [hres] at hb; cases hb
    | some tgt =>
      rw [hres] at hb
      have hinv : tgt.invAll = true :=
        iclassGo_inv id sects hs none tgt (Or.inl rfl) hres
      have hwf' : childrenWF rest = true := by
        rw [childrenWF] at hwf
        exact hwf
      exact buildChildren_inv sects hs rest _ es hwf'
        (entriesInv_dictInsert key _ acc hinv hacc) hb
  | .mk key .other :: rest, acc, es, hwf, hacc, hb => by
    rw [buildChildren] at hb
    have hwf' : childrenWF rest = true := by
      rw [childrenWF] at hwf
      exact hwf
    exact buildChildren_inv sects hs rest acc es hwf' hacc hb

end

theorem dictLookup_dictInsert_self (k : RowKey) (t : Target) (l : List (RowKey × Target)) :
    dictLookup k (dictInsert k t l) = some t := by
  induction l with
  | nil => simp [dictInsert, dictLookup]
  | cons hd tl ih =>
    obtain ⟨k', t'⟩ := hd
    rw [dictInsert]
    split
    · rw [dictLookup]
      simp
    · next hne =>
      rw [dictLookup, if_neg hne]
      exact ih

theorem dictLookup_isSome_dictInsert (k k' : RowKey) (t : Target)
    (l : List (RowKey × Target)) (h : (dictLookup k l).isSome = true) :
    (dictLookup k (dictInsert k' t l)).isSome = true := by
  by_cases hk : k = k'
  · subst hk
    rw [dictLookup_dictInsert_self]
    rfl
  · induction l with
    | nil => simp [dictLookup] at h
    | cons hd tl ih =>
      obtain ⟨k0, t0⟩ := hd
      rw [dictInsert]
      split
      · next heq =>
        subst heq
        rw [dictLookup] at h ⊢
        rw [if_neg hk] at h ⊢
        exact h
      · next hne =>
        rw [dictLookup] at h ⊢
        by_cases hk0 : k = k0
        · rw [if_pos hk0] at h ⊢
          exact h
        · rw [if_neg hk0] at h ⊢
          exact ih h

theorem sectEntries_lookup_preserved (tv : List String) (rows : List DataRow) :
    ∀ acc es k, (dictLookup k acc).isSome = true →
      sectEntries tv rows acc = some es → (dictLookup k es).isSome = true := by
  induction rows with
  | nil =>
    intro acc es k h hb
    rw [sectEntries] at hb
    cases hb
    exact h
  | cons r rest ih =>
    intro acc es k h hb
    rw [sectEntries] at hb
    cases hk : rowKey tv r with
    | none => rw [hk] at hb; cases hb
    | some k' =>
      cases ht : rowTarget r with
      | none => rw [hk, ht] at hb; cases hb
      | some t =>
        rw [hk, ht] at hb
        exact ih _ es k (dictLookup_isSome_dictInsert k k' t acc h) hb

theorem sectEntries_mem_key (tv : List String) (rows : List DataRow) :
    ∀ acc es, sectEntries tv rows acc = some es →
      ∀ r ∈ rows, ∃ k, rowKey tv r = some k ∧ (dictLookup k es).isSome = true := by
  induction rows with
  | nil =>
    intro acc es _ r hr
    simp at hr
  | cons r0 rest ih =>
    intro acc es hb r hr
    rw [sectEntries] at hb
    cases hk : rowKey tv r0 with
    | none => rw [hk] at hb; cases hb
    | some k' =>
      cases ht : rowTarget r0 with
      | none => rw [hk, ht] at hb; cases hb
      | some t =>
        rw [hk, ht] at hb
        rcases List.mem_cons.mp hr with hr0 | hrrest
        · subst hr0
          refine ⟨k', hk, ?_⟩
          refine sectEntries_lookup_preserved tv rest _ es k' ?_ hb
          rw [dictLookup_dictInsert_self]
          rfl
        · exact ih _ es hb r hrrest

/-- The scan of `matchVar` passes over every leading tuple whose name is
not the constraint's field name. -/
theorem matchVar_skip (vs1 vs2 : Values) (f : String) (p : Option String)
    (hfirst : f ∉ vs1.map Prod.fst) :
    matchVar (vs1 ++ vs2) (f, p) = matchVar vs2 (f, p) := by
  induction vs1 with
  | nil => rfl
  | cons hd tl ih =>
    obtain ⟨n, v⟩ := hd
    simp only [List.map_cons, List.mem_cons, not_or] at hfirst
    have hn : ¬ n = f := fun hh => hfirst.1 hh.symm
    rw [List.cons_append, matchVar]
    simp only [hn, if_false]
    exact ih hfirst.2

/-- The row loop returns `none` when every row fails. -/
theorem decodeRows_none (ex : IMap → Nat → Values) (dis : String → Nat → Option String)
    (es : List (RowKey × Target)) (values : Values) (instr : Nat)
    (h : ∀ e ∈ es, rowMatches values e.1 = false) :
    decodeRows ex dis es values instr = none := by
  induction es with
  | nil => rw [decodeRows]
  | cons hd tl ih =>
    obtain ⟨row, tgt⟩ := hd
    rw [decodeRows]
    have hr : rowMatches values row = false := h (row, tgt) (List.mem_cons_self _ _)
    simp only [hr, Bool.false_eq_true, if_false]
    exact ih fun e he => h e (List.mem_cons_of_mem _ he)

/-- The row loop resolves the first matching row, skipping failing
prefixes. -/
theorem decodeRows_first (ex : IMap → Nat → Values) (dis : String → Nat → Option String)
    (es1 rest : List (RowKey × Target)) (r1 : RowKey) (t1 : Target) (values : Values) (instr : Nat)
    (hprev : ∀ e ∈ es1, rowMatches values e.1 = false)
    (h1 : rowMatches values r1 = true) :
    decodeRows ex dis (es1 ++ (r1, t1) :: rest) values instr = resolveTarget ex dis t1 instr := by
  induction es1 with
  | nil =>
    rw [List.nil_append, decodeRows]
    simp only [h1, if_true]
  | cons hd tl ih =>
    obtain ⟨row, tgt⟩ := hd
    rw [List.cons_append, decodeRows]
    have hr : rowMatches values row = false := hprev (row, tgt) (List.mem_cons_self _ _)
    simp only [hr, Bool.false_eq_true, if_false]
    exact ih fun e he => hprev e (List.mem_cons_of_mem _ he)

/-- The iclass loop over a list with no matching section leaves the
currently assigned value in place, defaulting to the bare identifier. -/
theorem iclassGo_none (id : String) (l : List IclassSect) (cur : Option Target)
    (h : ∀ s ∈ l, s.id ≠ id) :
    iclassGo id l cur = some (cur.getD (.bare id)) := by
  induction l generalizing cur with
  | nil => rfl
  | cons s rest ih =>
    rw [iclassGo]
    have hs : ¬ s.id = id := h s (List.mem_cons_self _ _)
    simp only [hs, if_false]
    exact ih _ fun s' hs' => h s' (List.mem_cons_of_mem _ hs')

/-- The iclass loop ends up with the last matching section's node when
every earlier matching section also builds. -/
theorem iclassGo_last (id : String) (l2 : List IclassSect) (s : IclassSect) (t : EncodingTable)
    (hid : s.id = id) (hl2 : ∀ s' ∈ l2, s'.id ≠ id) (ht : buildSect s = some t)
    (l1 : List IclassSect)
    (hl1 : ∀ s' ∈ l1, s'.id = id → ∃ t', buildSect s' = some t') :
    ∀ cur, iclassGo id (l1 ++ s :: l2) cur = some (.table t) := by
  induction l1 with
  | nil =>
    intro cur
    rw [List.nil_append, iclassGo]
    simp only [hid, if_pos rfl, ht]
    rw [iclassGo_none id l2 _ hl2]
    rfl
  | cons s' rest ih =>
    intro cur
    rw [List.cons_append, iclassGo]
    by_cases hs' : s'.id = id
    · obtain ⟨t', ht'⟩ := hl1 s' (List.mem_cons_self _ _) hs'
      simp only [hs', if_pos rfl, ht']
      exact ih (fun x hx hxid => hl1 x (List.mem_cons_of_mem _ hx) hxid) _
    · simp only [hs', if_false]
      exact ih (fun x hx hxid => hl1 x (List.mem_cons_of_mem _ hx) hxid) _

/-! ## Concrete fixtures used by witnesses and counterexamples -/

/-- A concrete field extractor for witnesses: every node yields `f = "10"`. -/
def exW : IMap → Nat → Values := fun _ _ => [("f", "10")]

/-- A concrete disassembler for witnesses: always fails (`None`). -/
def disW : String → Nat → Option String := fun _ _ => none

/-- A leaf table whose single `thead` row triggers the degenerate
`directFile` branch; its one data row names `fB`. -/
def sectB : IclassSect := ⟨"B", [], ⟨[["h"]], [⟨[], none, some "fB"⟩]⟩⟩

/-- First of two iclass_sects sharing the id `A`; its node is the bare
name `X`. -/
def dupSectX : IclassSect := ⟨"A", [], ⟨[["h"]], [⟨[], none, some "X"⟩]⟩⟩

/-- Second of two iclass_sects sharing the id `A`; its node is the bare
name `Y`. -/
def dupSectY : IclassSect := ⟨"A", [], ⟨[["h"]], [⟨[], none, some "Y"⟩]⟩⟩

/-- A leaf table with two `thead` rows but exactly one data row. -/
def oneRowTwoHeadSect : IclassSect :=
  ⟨"C", [], ⟨[["hdr"], ["F"]], [⟨[some "0"], none, some "r1"⟩]⟩⟩

/-! ## Claims -/

/-- Claim C1: for a node with no `directFile`, `decode` tries the dispatch
rows in insertion order and resolves the target of the first row all of
whose constraints match the extracted values; when a row `r1` inserted
before a row `r2` both fully match, `r1`'s target is the one resolved. -/
theorem decode_first_matching_row (ex : IMap → Nat → Values)
    (dis : String → Nat → Option String) (imap : IMap) (instr : Nat)
    (es1 es2 es3 : List (RowKey × Target)) (r1 r2 : RowKey) (t1 t2 : Target)
    (hprev : ∀ e ∈ es1, rowMatches (ex imap instr) e.1 = false)
    (h1 : rowMatches (ex imap instr) r1 = true)
    (h2 : rowMatches (ex imap instr) r2 = true) :
    EncodingTable.decode ex dis
        (.mk imap (es1 ++ [(r1, t1)] ++ es2 ++ [(r2, t2)] ++ es3) none) instr
      = resolveTarget ex dis t1 instr := by
  rw [EncodingTable.decode]
  have key := decodeRows_first ex dis es1 (es2 ++ [(r2, t2)] ++ es3) r1 t1
    (ex imap instr) instr hprev h1
  simpa [List.append_assoc] using key

/-- Witness for C1 at a concrete two-match table: the row inserted first
wins. -/
theorem decode_first_matching_row_witness :
    EncodingTable.decode exW disW
        (.mk [] ([([("f", some "0x")], .bare "zero")] ++ [([("f", some "1x")], .bare "first")]
          ++ [] ++ [([("f", some "10")], .bare "second")] ++ []) none) 0
      = resolveTarget exW disW (.bare "first") 0 :=
  decode_first_matching_row exW disW [] 0 [([("f", some "0x")], .bare "zero")] [] []
    [("f", some "1x")] [("f", some "10")] (.bare "first") (.bare "second")
    (by decide) (by decide) (by decide)

/-- Claim C2: for a constraint whose pattern contains `!=`, with `a` the
left half and `b` the right half of the whitespace-stripped pattern, and
`v` the extracted value of the named field (first occurrence): if `a` is
empty the constraint succeeds iff `v` does not match `b` under wildcard
comparison; if `a` is non-empty the constraint succeeds iff the first
`a.length` characters of `v` match `a` and the remaining characters do not
match `b`, both under wildcard comparison. -/
theorem matchVar_negated_pattern (vs1 vs2 : Values) (f v pat : String) (a b : List Char)
    (hfirst : f ∉ vs1.map Prod.fst)
    (hneg : (splitNeq pat.toList).length ≠ 1)
    (ha : (splitNeq (removeSpaces pat.toList)).headD [] = a)
    (hb : (splitNeq (removeSpaces pat.toList)).getD 1 [] = b) :
    (a = [] → (matchVar (vs1 ++ (f, v) :: vs2) (f, some pat) = true ↔
        compareWithXs b v.toList = false)) ∧
    (a ≠ [] → (matchVar (vs1 ++ (f, v) :: vs2) (f, some pat) = true ↔
        compareWithXs a (v.toList.take a.length) = true ∧
          compareWithXs b (v.toList.drop a.length) = false)) := by
  have hneg' : (splitNeq pat.data).length ≠ 1 := by simpa [String.toList] using hneg
  have ha' : (splitNeq (removeSpaces pat.data)).head?.getD [] = a := by
    simpa [String.toList] using ha
  have hb' : (splitNeq (removeSpaces pat.data))[1]?.getD [] = b := by
    simpa [String.toList] using hb
  have key : matchVar (vs1 ++ (f, v) :: vs2) (f, some pat) =
      (if a = [] then !(compareWithXs b v.toList)
       else compareWithXs a (v.toList.take a.length) &&
         !(compareWithXs b (v.toList.drop a.length))) := by
    rw [matchVar_skip vs1 ((f, v) :: vs2) f (some pat) hfirst, matchVar]
    simp [hneg', ha', hb', String.toList]
  constructor
  · intro h0
    subst h0
    simp [key]
  · intro h0
    simp [key, h0]

/-- Witness for C2: the spec's own example, pattern `!=1x` against value
`00` succeeds (empty left half, `00` does not match `1x`). -/
theorem matchVar_negated_pattern_witness :
    matchVar [("f", "00")] ("f", some "!=1x") = true :=
  ((matchVar_negated_pattern [] [] "f" "00" "!=1x" [] ['1', 'x']
      (by simp) (by decide) (by decide) (by decide)).1 rfl).mpr (by decide)

/-- Counterexample to claim C3 as stated: a leaf table with exactly one
data row but two header rows is built with `directFile` *not* set and the
row in the dispatch — the degenerate branch triggers on the number of
`thead` rows, not on the number of data rows. -/
theorem single_data_row_cex :
    oneRowTwoHeadSect.table.tbodyRows.length = 1 ∧
    (buildSect oneRowTwoHeadSect).map EncodingTable.directFile = some none ∧
    (buildSect oneRowTwoHeadSect).map (fun t => t.entries.isEmpty) = some false :=
  ⟨rfl, rfl, rfl⟩

/-- Claim C3 as amended: the degenerate branch is keyed on the header-row
count. A leaf table whose `thead` has exactly one row gets the first data
row's target as `directFile` and an empty dispatch; decoding through any
node with `directFile` set bypasses row matching entirely; a leaf table
with more than one header row gets no `directFile` and every data row's
key present in the dispatch. -/
theorem single_header_directTarget :
    (∀ (sid : String) (boxes : List Box) (h0 : List String) (r : DataRow)
        (rest : List DataRow) (t : Target), rowTarget r = some t →
      buildSect ⟨sid, boxes, ⟨[h0], r :: rest⟩⟩ = some (.mk (mkIMap boxes) [] (some t))) ∧
    (∀ (ex : IMap → Nat → Values) (dis : String → Nat → Option String)
        (imap : IMap) (es : List (RowKey × Target)) (t : Target) (instr : Nat),
      EncodingTable.decode ex dis (.mk imap es (some t)) instr = resolveTarget ex dis t instr) ∧
    (∀ (sid : String) (boxes : List Box) (h0 tv : List String) (hrest : List (List String))
        (rows : List DataRow) (t : EncodingTable),
      buildSect ⟨sid, boxes, ⟨h0 :: tv :: hrest, rows⟩⟩ = some t →
      t.directFile = none ∧
        ∀ r ∈ rows, ∃ k, rowKey tv r = some k ∧ (dictLookup k t.entries).isSome = true) := by
  refine ⟨?_, ?_, ?_⟩
  · intro sid boxes h0 r rest t ht
    simp [buildSect, ht]
  · intro ex dis imap es t instr
    rw [EncodingTable.decode]
  · intro sid boxes h0 tv hrest rows t hb
    rw [buildSect] at hb
    simp only [Option.map_eq_some'] at hb
    obtain ⟨es, hes, hteq⟩ := hb
    subst hteq
    refine ⟨rfl, ?_⟩
    intro r hr
    exact sectEntries_mem_key tv rows [] es hes r hr

/-- Witness for the amended C3, exercising all three conjuncts on concrete
tables. -/
theorem single_header_directTarget_witness :
    buildSect ⟨"S", [], ⟨[["hdr"]], [⟨[], none, some "onlyform"⟩]⟩⟩
        = some (.mk [] [] (some (.bare "onlyform"))) ∧
    EncodingTable.decode exW disW
        (.mk [] [([("f", some "0x")], .bare "z")] (some (.bare "direct"))) 0
      = resolveTarget exW disW (.bare "direct") 0 ∧
    (EncodingTable.directFile (.mk [] [([("F", some "0")], .bare "r1")] none) = none ∧
      ∀ r ∈ [(⟨[some "0"], none, some "r1"⟩ : DataRow)], ∃ k, rowKey ["F"] r = some k ∧
        (dictLookup k (EncodingTable.entries
          (.mk [] [([("F", some "0")], .bare "r1")] none))).isSome = true) :=
  ⟨single_header_directTarget.1 "S" [] ["hdr"] ⟨[], none, some "onlyform"⟩ [] (.bare "onlyform") rfl,
   single_header_directTarget.2.1 exW disW [] [([("f", some "0x")], .bare "z")] (.bare "direct") 0,
   single_header_directTarget.2.2 "S" [] ["hdr2"] ["F"] []
     [⟨[some "0"], none, some "r1"⟩] (.mk [] [([("F", some "0")], .bare "r1")] none) rfl⟩

/-- Claim C4: a constraint whose pattern is the `None` marker succeeds
whenever the named field occurs among the extracted values, whatever its
value. -/
theorem matchVar_none_pattern (vars : Values) (f : String)
    (h : f ∈ vars.map Prod.fst) :
    matchVar vars (f, none) = true := by
  induction vars with
  | nil => simp at h
  | cons hd tl ih =>
    obtain ⟨n, v⟩ := hd
    simp only [List.map_cons, List.mem_cons] at h
    rw [matchVar]
    by_cases hn : n = f
    · simp [hn]
    · have hm : f ∈ tl.map Prod.fst := by
        rcases h with h | h
        · exact absurd h.symm hn
        · exact h
      simp [hn, ih hm]

/-- Witness for C4: a `None` constraint on a present field succeeds. -/
theorem matchVar_none_pattern_witness :
    matchVar [("g", "1"), ("f", "10")] ("f", none) = true :=
  matchVar_none_pattern [("g", "1"), ("f", "10")] "f" (by decide)

/-- Claim C5: a constraint on a field name absent from the extracted
values fails (returns `false`), for every pattern including the `None`
wildcard; `matchVar` is total, so nothing is raised. -/
theorem matchVar_absent_field (vars : Values) (f : String) (pat : Option String)
    (h : f ∉ vars.map Prod.fst) :
    matchVar vars (f, pat) = false := by
  induction vars with
  | nil => rfl
  | cons hd tl ih =>
    obtain ⟨n, v⟩ := hd
    simp only [List.map_cons, List.mem_cons, not_or] at h
    have hn : ¬ n = f := fun hh => h.1 hh.symm
    rw [matchVar]
    simp only [hn, if_false]
    exact ih h.2

/-- Witness for C5: even the `None` wildcard fails on an absent field. -/
theorem matchVar_absent_field_witness :
    matchVar [("g", "1")] ("f", none) = false :=
  matchVar_absent_field [("g", "1")] "f" none (by decide)

/-- Claim C6: for a node with no `directFile`, when no dispatch row fully
matches the extracted values, `decode` falls through and returns `none` —
a normal return value of the total function, not an exception. -/
theorem decode_no_row_matches (ex : IMap → Nat → Values)
    (dis : String → Nat → Option String) (imap : IMap)
    (es : List (RowKey × Target)) (instr : Nat)
    (h : ∀ e ∈ es, rowMatches (ex imap instr) e.1 = false) :
    EncodingTable.decode ex dis (.mk imap es none) instr = none := by
  rw [EncodingTable.decode]
  exact decodeRows_none ex dis es (ex imap instr) instr h

/-- Witness for C6: a one-row table whose row does not match. -/
theorem decode_no_row_matches_witness :
    EncodingTable.decode exW disW (.mk [] [([("f", some "0x")], .bare "z")] none) 0 = none :=
  decode_no_row_matches exW disW [] [([("f", some "0x")], .bare "z")] 0 (by decide)

/-- Claim C7: an iclass child whose identifier matches no iclass_sect in
the document resolves to the raw identifier as a bare-name target, and the
child loop continues normally (the build does not fail on its account). -/
theorem unresolved_iclass_kept_as_bare_name (sects : List IclassSect) (id : String)
    (key : RowKey) (rest : List ChildNode) (acc : List (RowKey × Target))
    (h : ∀ s ∈ sects, s.id ≠ id) :
    iclassResolve sects id = some (.bare id) ∧
    buildChildren sects (.mk key (.iclass id) :: rest) acc
      = buildChildren sects rest (dictInsert key (.bare id) acc) := by
  have hres : iclassResolve sects id = some (.bare id) := by
    unfold iclassResolve
    rw [iclassGo_none id sects none h]
    rfl
  refine ⟨hres, ?_⟩
  rw [buildChildren]
  simp [hres]

/-- Witness for C7: identifier `A` has no section in a document whose only
section is `B`. -/
theorem unresolved_iclass_kept_as_bare_name_witness :
    iclassResolve [sectB] "A" = some (.bare "A") ∧
    buildChildren [sectB] [.mk [("op", some "1")] (.iclass "A")] []
      = buildChildren [sectB] [] (dictInsert [("op", some "1")] (.bare "A") []) :=
  unresolved_iclass_kept_as_bare_name [sectB] "A" [("op", some "1")] [] [] (by decide)

/-- Counterexample to claim C8 as stated: with two iclass_sects of id `A`
in document order (first yielding bare target `X`, second bare target
`Y`), the stored target is the node built from the *second* section, not
the first — the loop assigns on every match, so later matches overwrite
earlier ones. -/
theorem iclass_first_match_cex :
    buildSect dupSectX = some (.mk [] [] (some (.bare "X"))) ∧
    iclassResolve [dupSectX, dupSectY] "A"
      = some (.table (.mk [] [] (some (.bare "Y")))) ∧
    Target.table (.mk [] [] (some (.bare "Y"))) ≠ Target.table (.mk [] [] (some (.bare "X"))) := by
  refine ⟨rfl, rfl, ?_⟩
  intro h
  simp at h

/-- Claim C8 as amended: when several iclass_sects match the child's
identifier, the stored target is the node built from the *last* matching
section in document order (every earlier matching section is still built,
so they must all build successfully). -/
theorem iclass_last_match_wins (l1 l2 : List IclassSect) (s : IclassSect) (id : String)
    (t : EncodingTable) (hid : s.id = id) (hl2 : ∀ s' ∈ l2, s'.id ≠ id)
    (hl1 : ∀ s' ∈ l1, s'.id = id → ∃ t', buildSect s' = some t')
    (ht : buildSect s = some t) :
    iclassResolve (l1 ++ s :: l2) id = some (.table t) :=
  iclassGo_last id l2 s t hid hl2 ht l1 hl1 none

/-- Witness for the amended C8 at the concrete duplicate pair. -/
theorem iclass_last_match_wins_witness :
    iclassResolve ([dupSectX] ++ dupSectY :: []) "A"
      = some (.table (.mk [] [] (some (.bare "Y")))) :=
  iclass_last_match_wins [dupSectX] [] dupSectY "A" (.mk [] [] (some (.bare "Y")))
    rfl (by simp)
    (by
      intro s' hs' hid'
      rw [List.mem_singleton] at hs'
      subst hs'
      exact ⟨.mk [] [] (some (.bare "X")), rfl⟩)
    rfl

/-- Counterexample to claim C9 as stated: a grouping fragment with no
child descriptors conforms to the document shape, builds successfully, and
yields a node with an empty dispatch and no `directFile` — violating the
claimed invariant. -/
theorem node_invariant_cex :
    buildH [] (.mk [] []) = some (.mk [] [] none) ∧
    EncodingTable.entries (.mk [] [] none) = [] ∧
    EncodingTable.directFile (.mk [] [] none) = none ∧
    EncodingTable.invariantAll (.mk [] [] none) = false :=
  ⟨rfl, rfl, rfl, rfl⟩

/-- Claim C9 as amended: every node of a tree built from a grouping
fragment satisfies, recursively, "non-empty dispatch or `directFile` set",
provided every grouping fragment (recursively) has at least one child
bearing a group or iclass declaration and every iclass_sect of the
document has either a single header row or a non-empty body. -/
theorem build_invariant (sects : List IclassSect) (h : Hierarchy) (t : EncodingTable)
    (hs : ∀ s ∈ sects, WFsect s = true) (hwf : WFh h = true)
    (hb : buildH sects h = some t) : t.invariantAll = true :=
  buildH_inv sects hs h t hwf hb

/-- Witness for the amended C9: a one-child grouping fragment whose child
is an unresolved iclass builds to a node satisfying the invariant. -/
theorem build_invariant_witness :
    EncodingTable.invariantAll (.mk [] [([("op", some "1")], .bare "Z")] none) = true :=
  build_invariant [] (.mk [] [.mk [("op", some "1")] (.iclass "Z")])
    (.mk [] [([("op", some "1")], .bare "Z")] none) (by simp) rfl rfl

/-- Claim C10: two data rows with identical row keys produce a single
dispatch entry for that key whose target is the later row's target (dict
assignment overwrites; first-match-wins does not arbitrate between
identical keys). -/
theorem duplicate_row_key_last_wins (sid : String) (boxes : List Box)
    (h0 tv : List String) (hrest : List (List String)) (r1 r2 : DataRow)
    (k : RowKey) (t1 t2 : Target)
    (hk1 : rowKey tv r1 = some k) (hk2 : rowKey tv r2 = some k)
    (ht1 : rowTarget r1 = some t1) (ht2 : rowTarget r2 = some t2) :
    buildSect ⟨sid, boxes, ⟨h0 :: tv :: hrest, [r1, r2]⟩⟩
      = some (.mk (mkIMap boxes) [(k, t2)] none) := by
  simp [buildSect, sectEntries, hk1, hk2, ht1, ht2, dictInsert]

/-- Witness for C10 at a concrete duplicate-key table: one entry, later
target `r2`. -/
theorem duplicate_row_key_last_wins_witness :
    buildSect ⟨"S", [], ⟨[["hdr"], ["F"]],
        [⟨[some "0"], none, some "r1"⟩, ⟨[some "0"], none, some "r2"⟩]⟩⟩
      = some (.mk (mkIMap []) [([("F", some "0")], .bare "r2")] none) :=
  duplicate_row_key_last_wins "S" [] ["hdr"] ["F"] [] ⟨[some "0"], none, some "r1"⟩
    ⟨[some "0"], none, some "r2"⟩ [("F", some "0")] (.bare "r1") (.bare "r2")
    rfl rfl rfl rfl

end Decoder
